import Mathlib

/-!
Verification of the MMD drift-detection statistical core of alibi-detect
(kernel two-sample test with permutation-based significance testing).

The repository ships the method documentation (`doc/source/methods/mmddrift.ipynb`);
the statistical engine itself (`alibi_detect/cd/mmd.py`, `alibi_detect/utils/*`)
is not part of the provided sources, so the definitions below are modelled from
the specification's description of that engine.  Real-number arithmetic is
modelled exactly over `ℚ`.
-/

open Finset

attribute [local semireducible] Rat.mul Rat.inv Rat.add Rat.sub

deriving instance DecidableEq for Except

namespace AlibiDetect

/-- Modelled from the spec: sum of the reference–reference block of the kernel
matrix with the diagonal zeroed (`alibi_detect` kernel-matrix code is missing
from the sources).  `K i j` is the kernel value of pooled indices `i, j`;
the first `m` pooled indices are the reference sample. -/
def kxxSum (K : Nat → Nat → ℚ) (m : Nat) : ℚ :=
  ∑ i in range m, ∑ j in range m, if i = j then 0 else K i j

/-- Modelled from the spec: sum of the test–test block (pooled indices `≥ m`)
with the diagonal zeroed. -/
def kyySum (K : Nat → Nat → ℚ) (m n : Nat) : ℚ :=
  ∑ i in range n, ∑ j in range n, if i = j then 0 else K (m + i) (m + j)

/-- Modelled from the spec: sum of the reference–test cross block. -/
def kxySum (K : Nat → Nat → ℚ) (m n : Nat) : ℚ :=
  ∑ i in range m, ∑ j in range n, K i (m + j)

/-- Modelled from the spec: value of the unbiased MMD² estimator of §4.3,
assembled from the three block sums. -/
def mmd2Val (K : Nat → Nat → ℚ) (m n : Nat) : ℚ :=
  kxxSum K m / ((m : ℚ) * ((m : ℚ) - 1))
    + kyySum K m n / ((n : ℚ) * ((n : ℚ) - 1))
    - 2 * kxySum K m n / ((m : ℚ) * (n : ℚ))

/-- Modelled from the spec: `MMDStatistic.compute (K, m, n)` — the unbiased MMD²
estimator, failing fast with an invalid-input error when a group has size ≤ 1
(division by zero guard of §4.3); the statistic-computation code is missing
from the sources. -/
def MMDStatistic.compute (K : Nat → Nat → ℚ) (m n : Nat) : Except String ℚ :=
  if m ≤ 1 ∨ n ≤ 1 then
    .error "invalid-input: reference or batch sample size <= 1"
  else
    .ok (mmd2Val K m n)

/-- Off-diagonal pair sums over a square index block rewrite to diagonal-zeroed
double sums. -/
theorem sum_offdiag_square (f : Nat → Nat → ℚ) (s : Finset Nat) :
    (∑ p in ((s ×ˢ s).filter fun p => p.1 ≠ p.2), f p.1 p.2)
      = ∑ i in s, ∑ j in s, if i = j then 0 else f i j := by
  rw [Finset.sum_filter, ← Finset.sum_product']
  refine Finset.sum_congr rfl fun p _ => ?_
  by_cases h : p.1 = p.2 <;> simp [h]

theorem kxxSum_eq_offdiag (K : Nat → Nat → ℚ) (m : Nat) :
    kxxSum K m
      = ∑ p in ((range m ×ˢ range m).filter fun p => p.1 ≠ p.2), K p.1 p.2 := by
  rw [sum_offdiag_square, kxxSum]

theorem kyySum_eq_offdiag (K : Nat → Nat → ℚ) (m n : Nat) :
    kyySum K m n
      = ∑ p in ((Ico m (m + n) ×ˢ Ico m (m + n)).filter fun p => p.1 ≠ p.2),
          K p.1 p.2 := by
  rw [sum_offdiag_square, kyySum]
  rw [Finset.sum_Ico_eq_sum_range]
  simp only [Nat.add_sub_cancel_left]
  refine Finset.sum_congr rfl fun i _ => ?_
  rw [Finset.sum_Ico_eq_sum_range]
  simp only [Nat.add_sub_cancel_left]
  refine Finset.sum_congr rfl fun j _ => ?_
  simp [Nat.add_right_cancel_iff]

theorem kxySum_eq_cross (K : Nat → Nat → ℚ) (m n : Nat) :
    kxySum K m n = ∑ p in range m ×ˢ Ico m (m + n), K p.1 p.2 := by
  rw [kxySum, Finset.sum_product']
  refine Finset.sum_congr rfl fun i _ => ?_
  rw [Finset.sum_Ico_eq_sum_range]
  simp only [Nat.add_sub_cancel_left]

/-- C1: for every kernel matrix `K` and `m, n > 1`, `MMDStatistic.compute`
returns exactly `1/(m(m-1))` times the sum of `K i j` over distinct `i, j`
among the first `m` pooled indices, plus `1/(n(n-1))` times the sum over
distinct `i, j` among the last `n` indices, minus `2/(mn)` times the
reference–test cross sum; diagonal entries are excluded from the first two
sums. -/
theorem C1_unbiased_mmd2_formula (K : Nat → Nat → ℚ) (m n : Nat)
    (hm : 1 < m) (hn : 1 < n) :
    MMDStatistic.compute K m n =
      .ok ((1 / ((m : ℚ) * ((m : ℚ) - 1))) *
              ∑ p in ((range m ×ˢ range m).filter fun p => p.1 ≠ p.2), K p.1 p.2
            + (1 / ((n : ℚ) * ((n : ℚ) - 1))) *
              ∑ p in ((Ico m (m + n) ×ˢ Ico m (m + n)).filter fun p => p.1 ≠ p.2),
                K p.1 p.2
            - (2 / ((m : ℚ) * (n : ℚ))) *
              ∑ p in range m ×ˢ Ico m (m + n), K p.1 p.2) := by
  have hcond : ¬ (m ≤ 1 ∨ n ≤ 1) := by omega
  rw [MMDStatistic.compute, if_neg hcond]
  congr 1
  rw [mmd2Val, kxxSum_eq_offdiag, kyySum_eq_offdiag, kxySum_eq_cross]
  ring

/-- Concrete kernel matrix used by the witnesses: `K i j = (i + j : ℚ) + 1`
on pooled indices. -/
def Kc : Nat → Nat → ℚ := fun i j => (i : ℚ) + (j : ℚ) + 1

/-- Witness for C1 at `K = Kc`, `m = n = 2`. -/
theorem C1_unbiased_mmd2_formula_witness :
    MMDStatistic.compute Kc 2 2 =
      .ok ((1 / ((2 : ℚ) * ((2 : ℚ) - 1))) *
              ∑ p in ((range 2 ×ˢ range 2).filter fun p => p.1 ≠ p.2), Kc p.1 p.2
            + (1 / ((2 : ℚ) * ((2 : ℚ) - 1))) *
              ∑ p in ((Ico 2 4 ×ˢ Ico 2 4).filter fun p => p.1 ≠ p.2), Kc p.1 p.2
            - (2 / ((2 : ℚ) * (2 : ℚ))) *
              ∑ p in range 2 ×ˢ Ico 2 4, Kc p.1 p.2) :=
  C1_unbiased_mmd2_formula Kc 2 2 (by decide) (by decide)

/-- Modelled from the spec: a seedable pseudo-random generator step (the
source's NumPy-based randomness is missing from the sources); a linear
congruential generator stands in for the "explicit seedable source of
randomness" of §4.4. -/
def lcgNext (s : Nat) : Nat := (s * 1103515245 + 12345) % 4294967296

/-- Modelled from the spec: draw a random permutation of the index list `l`
by repeatedly selecting a remaining index (sampling without replacement
within each permutation, §4.4).  `fuel` is the length of `l`.  Returns the
permutation together with the advanced generator state. -/
def drawPermAux : Nat → Nat → List Nat → List Nat × Nat
  | 0, s, _ => ([], s)
  | fuel + 1, s, l =>
    if l = [] then ([], s)
    else
      let s1 := lcgNext s
      let i := (s1 / 65536) % l.length
      let out := drawPermAux fuel s1 (l.eraseIdx i)
      (l.getD i 0 :: out.1, out.2)

/-- Modelled from the spec: generate `count` independent random permutations
of the pooled indices `0, …, size-1`, threading the generator state. -/
def genPermsAux (size : Nat) : Nat → Nat → List (List Nat)
  | _, 0 => []
  | s, count + 1 =>
    let pr := drawPermAux size s (List.range size)
    pr.1 :: genPermsAux size pr.2 count

/-- Kernel matrix re-indexed by a permuted partition: the statistic under a
permutation is the quadratic form over `K` restricted to the new group
assignment (§4.4), i.e. `mmd2Val` of the re-indexed matrix. -/
def permuteK (K : Nat → Nat → ℚ) (p : List Nat) : Nat → Nat → ℚ :=
  fun i j => K (p.getD i 0) (p.getD j 0)

/-- Ascending sort used for ranking the null distribution. -/
def sortAsc (l : List ℚ) : List ℚ := l.insertionSort (· ≤ ·)

/-- Modelled from the spec: the value at the `(1−α)` quantile of a
distribution `l`: the `⌊α · |l|⌋`-th largest element, i.e. the element at
ascending position `|l| − ⌊α · |l|⌋` of the sorted distribution. -/
def quantileThreshold (alpha : ℚ) (l : List ℚ) : ℚ :=
  (sortAsc l).getD (l.length - (alpha * (l.length : ℚ)).floor.toNat) 0

/-- Result of the permutation test: observed statistic, p-value, distance
threshold and the raw permutation statistics (empirical null distribution). -/
structure PermResult where
  observed : ℚ
  p_value : ℚ
  distance_threshold : ℚ
  nullStats : List ℚ
deriving DecidableEq

/-- Modelled from the spec: `PermutationTest.run (K, m, n, n_permutations,
alpha)` of §4.4 (the permutation-test code is missing from the sources).
Generates the permuted partitions, evaluates the statistic under each,
appends the observed statistic to the null distribution before ranking, and
returns `p_value` = (count of statistics in the extended null distribution
that are ≥ the observed statistic) / (n_permutations + 1), together with the
`(1−α)` quantile of the extended null distribution as distance threshold. -/
def PermutationTest.run (K : Nat → Nat → ℚ) (m n nperm : Nat) (alpha : ℚ)
    (seed : Nat) : Except String PermResult :=
  if nperm = 0 then .error "invalid-input: non-positive permutation count"
  else
    match MMDStatistic.compute K m n with
    | .error e => .error e
    | .ok obs =>
      let nulls := (genPermsAux (m + n) seed nperm).map
        fun p => mmd2Val (permuteK K p) m n
      let extended := obs :: nulls
      let pv := ((extended.countP fun s => decide (obs ≤ s) : Nat) : ℚ)
        / ((nperm : ℚ) + 1)
      .ok ⟨obs, pv, quantileThreshold alpha extended, nulls⟩

/-- Drift decision of the orchestrator: drift is flagged exactly when the
p-value is at most the significance level α (the p-value test is canonical). -/
def isDriftDecision (alpha : ℚ) (r : PermResult) : Bool :=
  decide (r.p_value ≤ alpha)

theorem genPermsAux_length (size : Nat) :
    ∀ (s count : Nat), (genPermsAux size s count).length = count := by
  intro s count
  induction count generalizing s with
  | zero => rfl
  | succ c ih => simp [genPermsAux, ih]

/-- C2: the permutation test appends the observed statistic to the
`n_permutations` permutation statistics before ranking and returns
`p_value` = (count of statistics in the extended null distribution that are
≥ the observed statistic) / (n_permutations + 1); consequently the p-value
lies in `(0, 1]`. -/
theorem C2_pvalue_append_correction (K : Nat → Nat → ℚ)
    (m n nperm : Nat) (alpha : ℚ) (seed : Nat)
    (hm : 1 < m) (hn : 1 < n) (hp : 0 < nperm) :
    ∃ r, PermutationTest.run K m n nperm alpha seed = .ok r ∧
      r.nullStats.length = nperm ∧
      r.p_value =
        (((r.observed :: r.nullStats).countP fun s => decide (r.observed ≤ s) :
            Nat) : ℚ) / ((nperm : ℚ) + 1) ∧
      0 < r.p_value ∧ r.p_value ≤ 1 := by
  have hcond : ¬ (m ≤ 1 ∨ n ≤ 1) := by omega
  have hnp : nperm ≠ 0 := Nat.pos_iff_ne_zero.mp hp
  refine ⟨⟨mmd2Val K m n,
      (((mmd2Val K m n ::
          (genPermsAux (m + n) seed nperm).map fun p =>
            mmd2Val (permuteK K p) m n).countP
          fun s => decide (mmd2Val K m n ≤ s) : Nat) : ℚ) / ((nperm : ℚ) + 1),
      quantileThreshold alpha (mmd2Val K m n ::
        (genPermsAux (m + n) seed nperm).map fun p =>
          mmd2Val (permuteK K p) m n),
      (genPermsAux (m + n) seed nperm).map fun p =>
        mmd2Val (permuteK K p) m n⟩, ?_, ?_, rfl, ?_, ?_⟩
  · rw [PermutationTest.run, if_neg hnp, MMDStatistic.compute, if_neg hcond]
  · simp [List.length_map, genPermsAux_length]
  · apply div_pos
    · have : 0 < (mmd2Val K m n ::
          (genPermsAux (m + n) seed nperm).map fun p =>
            mmd2Val (permuteK K p) m n).countP
            fun s => decide (mmd2Val K m n ≤ s) := by
        rw [List.countP_cons]
        simp
      exact_mod_cast this
    · positivity
  · rw [div_le_one (by positivity)]
    have hle : ((mmd2Val K m n ::
        (genPermsAux (m + n) seed nperm).map fun p =>
          mmd2Val (permuteK K p) m n).countP
          fun s => decide (mmd2Val K m n ≤ s)) ≤ nperm + 1 := by
      calc ((mmd2Val K m n ::
          (genPermsAux (m + n) seed nperm).map fun p =>
            mmd2Val (permuteK K p) m n).countP
            fun s => decide (mmd2Val K m n ≤ s))
          ≤ (mmd2Val K m n ::
            (genPermsAux (m + n) seed nperm).map fun p =>
              mmd2Val (permuteK K p) m n).length := List.countP_le_length _
        _ = nperm + 1 := by simp [List.length_map, genPermsAux_length]
    exact_mod_cast hle

/-- Witness for C2 at a concrete run (`K = Kc`, `m = n = 2`, one
permutation, `α = 1/20`, seed 7). -/
theorem C2_pvalue_append_correction_witness :
    ∃ r, PermutationTest.run Kc 2 2 1 (1 / 20) 7 = .ok r ∧
      r.nullStats.length = 1 ∧
      r.p_value =
        (((r.observed :: r.nullStats).countP fun s => decide (r.observed ≤ s) :
            Nat) : ℚ) / ((1 : ℚ) + 1) ∧
      0 < r.p_value ∧ r.p_value ≤ 1 :=
  C2_pvalue_append_correction Kc 2 2 1 (1 / 20) 7 (by decide) (by decide)
    (by decide)

/-- C6: two runs of the permutation test with the same seed over the same
kernel matrix produce identical results (in particular identical p-value and
distance threshold); determinism is by construction of the seeded generator
model. -/
theorem C6_seeded_determinism (K : Nat → Nat → ℚ) (m n nperm : Nat)
    (alpha : ℚ) (seed1 seed2 : Nat) (hs : seed1 = seed2) :
    PermutationTest.run K m n nperm alpha seed1 =
      PermutationTest.run K m n nperm alpha seed2 := by
  rw [hs]

/-- Witness for C6 at a concrete seed. -/
theorem C6_seeded_determinism_witness :
    PermutationTest.run Kc 2 2 1 (1 / 20) 7 =
      PermutationTest.run Kc 2 2 1 (1 / 20) 7 :=
  C6_seeded_determinism Kc 2 2 1 (1 / 20) 7 7 rfl

/-- In a list sorted ascendingly, the elements `≥ obs` form a suffix whose
length is the count of such elements: position `idx` holds a value `≥ obs`
exactly when `idx` is at least `length − count`. -/
theorem sorted_count_suffix (obs : ℚ) :
    ∀ a : List ℚ, a.Sorted (· ≤ ·) →
      ∀ idx, idx < a.length →
        (obs ≤ a.getD idx 0 ↔
          a.length - a.countP (fun s => decide (obs ≤ s)) ≤ idx) := by
  intro a
  induction a with
  | nil => intro _ idx h; simp at h
  | cons x t ih =>
    intro hs idx hidx
    rw [List.sorted_cons] at hs
    obtain ⟨hx, ht⟩ := hs
    have hcle : t.countP (fun s => decide (obs ≤ s)) ≤ t.length :=
      List.countP_le_length _
    by_cases hox : obs ≤ x
    · have hall : ∀ y ∈ x :: t, obs ≤ y := by
        intro y hy
        rcases List.mem_cons.mp hy with rfl | hy
        · exact hox
        · exact le_trans hox (hx y hy)
      have hcount : (x :: t).countP (fun s => decide (obs ≤ s)) =
          (x :: t).length := by
        rw [List.countP_eq_length]
        intro y hy
        simpa using hall y hy
      rw [hcount, Nat.sub_self]
      constructor
      · intro _; exact Nat.zero_le idx
      · intro _
        rw [List.getD_eq_get _ _ hidx]
        exact hall _ (List.get_mem _ _ _)
    · have hcx : (x :: t).countP (fun s => decide (obs ≤ s)) =
          t.countP (fun s => decide (obs ≤ s)) := by
        rw [List.countP_cons]
        simp [hox]
      rw [hcx]
      cases idx with
      | zero =>
        simp only [List.getD_cons_zero, List.length_cons]
        constructor
        · intro h; exact absurd h hox
        · intro h; exfalso; omega
      | succ i =>
        have hi : i < t.length := by
          simpa [List.length_cons] using hidx
        have := ih ht i hi
        simp only [List.getD_cons_succ, List.length_cons]
        rw [this]
        omega

/-- The p-value test `count/length ≤ α` agrees with the comparison of the
observed statistic against the `(1−α)` quantile threshold, for a tie-free
distribution containing the observed statistic, whenever `⌊α·length⌋ ≥ 1`. -/
theorem pvalue_threshold_agree (obs alpha : ℚ) (l : List ℚ)
    (hmem : obs ∈ l) (hnd : l.Nodup)
    (hk : 1 ≤ (alpha * (l.length : ℚ)).floor) :
    (((l.countP fun s => decide (obs ≤ s) : Nat) : ℚ) / (l.length : ℚ) ≤ alpha
      ↔ quantileThreshold alpha l ≤ obs) := by
  have hL : 0 < l.length := List.length_pos.mpr (List.ne_nil_of_mem hmem)
  have hperm : List.Perm (sortAsc l) l := List.perm_insertionSort _ l
  have hsort : (sortAsc l).Sorted (· ≤ ·) := List.sorted_insertionSort _ l
  have hlen : (sortAsc l).length = l.length := hperm.length_eq
  have hsuffix : ∀ idx, idx < l.length →
      (obs ≤ (sortAsc l).getD idx 0 ↔
        l.length - l.countP (fun s => decide (obs ≤ s)) ≤ idx) := by
    intro idx hidx
    have h := sorted_count_suffix obs (sortAsc l) hsort idx
      (by rw [hlen]; exact hidx)
    rwa [hlen, hperm.countP_eq] at h
  have hc1 : 1 ≤ l.countP (fun s => decide (obs ≤ s)) :=
    List.countP_pos.mpr ⟨obs, hmem, by simp⟩
  have hcL : l.countP (fun s => decide (obs ≤ s)) ≤ l.length :=
    List.countP_le_length _
  have hk0 : (0 : ℤ) ≤ (alpha * (l.length : ℚ)).floor :=
    le_trans (by norm_num) hk
  have hk1 : 1 ≤ (alpha * (l.length : ℚ)).floor.toNat := by omega
  have hLk_lt :
      l.length - (alpha * (l.length : ℚ)).floor.toNat < l.length := by omega
  have hLc_lt :
      l.length - l.countP (fun s => decide (obs ≤ s)) < l.length := by omega
  have hobs_at : (sortAsc l).getD
      (l.length - l.countP (fun s => decide (obs ≤ s))) 0 = obs := by
    obtain ⟨i₀, hi₀⟩ := List.get_of_mem (hperm.mem_iff.mpr hmem)
    have hi₀L : (i₀ : Nat) < l.length := by rw [← hlen]; exact i₀.isLt
    have h₀ : l.length - l.countP (fun s => decide (obs ≤ s)) ≤ (i₀ : Nat) := by
      refine (hsuffix i₀ hi₀L).mp ?_
      rw [List.getD_eq_get _ _ i₀.isLt]
      exact le_of_eq hi₀.symm
    refine le_antisymm ?_ ((hsuffix _ hLc_lt).mpr le_rfl)
    rw [List.getD_eq_get _ _ (by rw [hlen]; exact hLc_lt)]
    exact le_trans (hsort.rel_get_of_le (Fin.le_def.mpr h₀)) (le_of_eq hi₀)
  have hcast : (((l.countP fun s => decide (obs ≤ s) : Nat) : ℚ) /
        (l.length : ℚ) ≤ alpha) ↔
      l.countP (fun s => decide (obs ≤ s)) ≤
        (alpha * (l.length : ℚ)).floor.toNat := by
    rw [div_le_iff (by exact_mod_cast hL)]
    constructor
    · intro h
      have hz : ((l.countP (fun s => decide (obs ≤ s)) : ℤ) ≤
          (alpha * (l.length : ℚ)).floor) :=
        Rat.le_floor.mpr (by push_cast; exact h)
      omega
    · intro h
      have hz : ((l.countP (fun s => decide (obs ≤ s)) : ℤ) ≤
          (alpha * (l.length : ℚ)).floor) := by omega
      have h2 := Rat.le_floor.mp hz
      push_cast at h2
      exact h2
  rw [quantileThreshold, hcast]
  constructor
  · intro hck
    have hidx : l.length - (alpha * (l.length : ℚ)).floor.toNat ≤
        l.length - l.countP (fun s => decide (obs ≤ s)) :=
      Nat.sub_le_sub_left hck _
    rw [List.getD_eq_get _ _ (by rw [hlen]; exact hLc_lt)] at hobs_at
    rw [List.getD_eq_get _ _ (by rw [hlen]; exact hLk_lt)]
    exact le_trans (hsort.rel_get_of_le (Fin.le_def.mpr hidx))
      (le_of_eq hobs_at)
  · intro hth
    by_contra hck
    push_neg at hck
    have h1 : l.length - l.countP (fun s => decide (obs ≤ s)) ≤
        l.length - (alpha * (l.length : ℚ)).floor.toNat :=
      Nat.sub_le_sub_left (le_of_lt hck) _
    have h2 : obs ≤ (sortAsc l).getD
        (l.length - (alpha * (l.length : ℚ)).floor.toNat) 0 :=
      (hsuffix _ hLk_lt).mpr h1
    have heq : (sortAsc l).getD
        (l.length - (alpha * (l.length : ℚ)).floor.toNat) 0 = obs :=
      le_antisymm hth h2
    have hnda : (sortAsc l).Nodup := hperm.nodup_iff.mpr hnd
    rw [List.getD_eq_get _ _ (by rw [hlen]; exact hLk_lt)] at heq
    rw [List.getD_eq_get _ _ (by rw [hlen]; exact hLc_lt)] at hobs_at
    have hfin := hnda.get_inj_iff.mp (heq.trans hobs_at.symm)
    have hv : l.length - (alpha * (l.length : ℚ)).floor.toNat =
        l.length - l.countP (fun s => decide (obs ≤ s)) :=
      congrArg Fin.val hfin
    omega

/-- C3: for every successful permutation-test run, the returned distance
threshold is the value at the `(1−α)` quantile of the (observed-extended)
null distribution, drift is flagged exactly when `p_value ≤ α`, and — in the
tie-free case, with the p-value test canonical — this decision agrees with
the comparison `observed_statistic ≥ distance_threshold`. -/
theorem C3_threshold_and_decision (K : Nat → Nat → ℚ) (m n nperm : Nat)
    (alpha : ℚ) (seed : Nat) (r : PermResult)
    (hr : PermutationTest.run K m n nperm alpha seed = .ok r)
    (hnd : (r.observed :: r.nullStats).Nodup)
    (hk : 1 ≤ (alpha * ((nperm : ℚ) + 1)).floor) :
    r.distance_threshold =
        quantileThreshold alpha (r.observed :: r.nullStats)
      ∧ (isDriftDecision alpha r = true ↔ r.p_value ≤ alpha)
      ∧ (isDriftDecision alpha r = true ↔
          r.distance_threshold ≤ r.observed) := by
  by_cases hnp : nperm = 0
  · rw [PermutationTest.run, if_pos hnp] at hr
    exact absurd hr (by simp)
  by_cases hcond : m ≤ 1 ∨ n ≤ 1
  · rw [PermutationTest.run, if_neg hnp, MMDStatistic.compute,
      if_pos hcond] at hr
    exact absurd hr (by simp)
  have hform : PermutationTest.run K m n nperm alpha seed =
      .ok ⟨mmd2Val K m n,
        (((mmd2Val K m n ::
            (genPermsAux (m + n) seed nperm).map fun p =>
              mmd2Val (permuteK K p) m n).countP
            fun s => decide (mmd2Val K m n ≤ s) : Nat) : ℚ) /
          ((nperm : ℚ) + 1),
        quantileThreshold alpha (mmd2Val K m n ::
          (genPermsAux (m + n) seed nperm).map fun p =>
            mmd2Val (permuteK K p) m n),
        (genPermsAux (m + n) seed nperm).map fun p =>
          mmd2Val (permuteK K p) m n⟩ := by
    rw [PermutationTest.run, if_neg hnp, MMDStatistic.compute, if_neg hcond]
  rw [hform] at hr
  obtain rfl := Except.ok.inj hr
  refine ⟨rfl, by simp [isDriftDecision], ?_⟩
  simp only [isDriftDecision, decide_eq_true_eq]
  have hlen2 : (((mmd2Val K m n ::
      (genPermsAux (m + n) seed nperm).map fun p =>
        mmd2Val (permuteK K p) m n).length : Nat) : ℚ) =
      (nperm : ℚ) + 1 := by
    rw [List.length_cons, List.length_map, genPermsAux_length]
    push_cast
    ring
  have hagree := pvalue_threshold_agree (mmd2Val K m n) alpha
    (mmd2Val K m n ::
      (genPermsAux (m + n) seed nperm).map fun p =>
        mmd2Val (permuteK K p) m n)
    (List.mem_cons_self _ _) hnd (by rw [hlen2]; exact hk)
  rw [hlen2] at hagree
  exact hagree

/-- Concrete multiplicative kernel matrix used by the C3 witness. -/
def Kmul : Nat → Nat → ℚ := fun i j => (i : ℚ) * (j : ℚ)

/-- Concrete permutation-test result produced by
`PermutationTest.run Kmul 2 2 1 (1/2) 7`. -/
def rWit : PermResult := ⟨7 / 2, 1 / 2, 7 / 2, [-5 / 2]⟩

/-- Witness for C3 at the concrete run `PermutationTest.run Kmul 2 2 1 (1/2) 7`. -/
theorem C3_threshold_and_decision_witness :
    rWit.distance_threshold =
        quantileThreshold (1 / 2) (rWit.observed :: rWit.nullStats)
      ∧ (isDriftDecision (1 / 2) rWit = true ↔ rWit.p_value ≤ 1 / 2)
      ∧ (isDriftDecision (1 / 2) rWit = true ↔
          rWit.distance_threshold ≤ rWit.observed) :=
  C3_threshold_and_decision Kmul 2 2 1 (1 / 2) 7 rWit (by decide) (by decide)
    (by decide)

/-- Keep only the most recent `N` elements of a list (suffix of length `≤ N`). -/
def lastN {α : Type} (N : Nat) (l : List α) : List α := (l.reverse.take N).reverse

/-- Modelled from the spec: the fixed-window ("last N") reference update of
§4.5 (the reference-update code of `alibi_detect.cd.utils` is missing from
the sources): concatenate the new batch to the existing reference sample and
truncate to the most recent `N` instances, dropping the oldest. -/
def fixedWindowUpdate {α : Type} (N : Nat) (ref batch : List α) : List α :=
  lastN N (ref ++ batch)

theorem lastN_length {α : Type} (N : Nat) (l : List α) :
    (lastN N l).length = min N l.length := by
  simp [lastN]

/-- Truncating to the last `N`, appending, and truncating again is the same
as truncating the full concatenation. -/
theorem lastN_append_absorb {α : Type} (N : Nat) (xs ys : List α) :
    lastN N (lastN N xs ++ ys) = lastN N (xs ++ ys) := by
  unfold lastN
  rw [List.reverse_append, List.reverse_reverse, List.reverse_append]
  rw [List.take_append_eq_append_take, List.take_append_eq_append_take,
    List.take_take, Nat.min_eq_left (Nat.sub_le _ _)]

/-- Folding fixed-window updates from a truncated start tracks the truncated
full stream. -/
theorem foldl_fixedWindow {α : Type} (N : Nat) :
    ∀ (bs : List (List α)) (r : List α),
      bs.foldl (fun acc b => fixedWindowUpdate N acc b) (lastN N r)
        = lastN N (r ++ bs.join) := by
  intro bs
  induction bs with
  | nil => intro r; simp
  | cons b bs ih =>
    intro r
    rw [List.foldl_cons]
    have h1 : List.foldl (fun acc b => fixedWindowUpdate N acc b)
          (fixedWindowUpdate N (lastN N r) b) bs
        = List.foldl (fun acc b => fixedWindowUpdate N acc b)
          (lastN N (r ++ b)) bs := by
      rw [fixedWindowUpdate, lastN_append_absorb]
    rw [h1, ih (r ++ b)]
    simp [List.join]

/-- C7: under the fixed-window ("last N") policy, after a sequence of update
calls whose batches total more than `N` instances, the reference sample is
exactly the most recent `N` instances of the full stream (initial reference
followed by all batches): each update concatenates the new batch and
truncates to the most recent `N`, dropping the oldest. -/
theorem C7_fixed_window_invariant {α : Type} (N : Nat) (ref0 : List α)
    (batches : List (List α))
    (h : N < (batches.map List.length).sum) :
    batches.foldl (fun acc b => fixedWindowUpdate N acc b) ref0
        = lastN N (ref0 ++ batches.join)
      ∧ (batches.foldl (fun acc b => fixedWindowUpdate N acc b) ref0).length
        = N := by
  have heq : batches.foldl (fun acc b => fixedWindowUpdate N acc b) ref0
      = lastN N (ref0 ++ batches.join) := by
    cases batches with
    | nil => simp at h
    | cons b bs =>
      rw [List.foldl_cons]
      have h1 : fixedWindowUpdate N ref0 b = lastN N (ref0 ++ b) := rfl
      rw [h1, foldl_fixedWindow N bs (ref0 ++ b)]
      simp [List.join]
  refine ⟨heq, ?_⟩
  rw [heq, lastN_length]
  have hlen : N < (ref0 ++ batches.join).length := by
    rw [List.length_append, List.length_join]
    omega
  omega

/-- Witness for C7: window size 2, initial reference `[0]`, batches
`[[1, 2], [3]]` (3 > 2 instances fed). -/
theorem C7_fixed_window_invariant_witness :
    [[1, 2], [3]].foldl (fun acc b => fixedWindowUpdate 2 acc b) [0]
        = lastN 2 ([0] ++ [[1, 2], [3]].join)
      ∧ ([[1, 2], [3]].foldl (fun acc b => fixedWindowUpdate 2 acc b)
          [0]).length = 2 :=
  C7_fixed_window_invariant 2 [0] [[1, 2], [3]] (by decide)

/-- Split a list into consecutive blocks of size `≤ b`; `fuel` bounds the
recursion depth (passed as the list length). -/
def chunksOfAux {α : Type} : Nat → Nat → List α → List (List α)
  | 0, _, _ => []
  | fuel + 1, b, l =>
    match l with
    | [] => []
    | x :: xs => (x :: xs).take b :: chunksOfAux fuel b ((x :: xs).drop b)

/-- Modelled from the spec: the block decomposition of the memory-bounded
kernel-matrix path of §4.2 (block size `b`). -/
def chunksOf {α : Type} (b : Nat) (l : List α) : List (List α) :=
  chunksOfAux l.length b l

/-- Contribution of pooled row `i` to the three estimator sums
(reference–reference, test–test, reference–test). -/
def rowContrib (K : Nat → Nat → ℚ) (m n i : Nat) : ℚ × ℚ × ℚ :=
  if i < m then
    (∑ j in range m, if i = j then 0 else K i j, 0,
      ∑ j in range n, K i (m + j))
  else
    (0, ∑ j in range n, if i = m + j then 0 else K i (m + j), 0)

/-- Accumulate the three estimator sums over a block of rows. -/
def sweepTriple (K : Nat → Nat → ℚ) (m n : Nat) (rows : List Nat) :
    ℚ × ℚ × ℚ :=
  rows.foldl (fun acc i => acc + rowContrib K m n i) 0

/-- Modelled from the spec: the memory-bounded (chunked) path of §4.2 —
sweep the pooled rows in blocks of size `≤ b`, accumulating the three
estimator sums during the sweep, then assemble the MMD² estimator. -/
def chunkedMMD (b : Nat) (K : Nat → Nat → ℚ) (m n : Nat) : ℚ :=
  ((chunksOf b (List.range (m + n))).foldl
      (fun acc blk => acc + sweepTriple K m n blk) 0).1 /
      ((m : ℚ) * ((m : ℚ) - 1))
    + ((chunksOf b (List.range (m + n))).foldl
        (fun acc blk => acc + sweepTriple K m n blk) 0).2.1 /
      ((n : ℚ) * ((n : ℚ) - 1))
    - 2 * ((chunksOf b (List.range (m + n))).foldl
        (fun acc blk => acc + sweepTriple K m n blk) 0).2.2 /
      ((m : ℚ) * (n : ℚ))

theorem chunksOfAux_join {α : Type} (b : Nat) (hb : 1 ≤ b) :
    ∀ (fuel : Nat) (l : List α), l.length ≤ fuel →
      (chunksOfAux fuel b l).flatten = l := by
  intro fuel
  induction fuel with
  | zero =>
    intro l hl
    have hl0 : l = [] := by
      cases l with
      | nil => rfl
      | cons x xs => simp at hl
    subst hl0
    rfl
  | succ fuel ih =>
    intro l hl
    cases l with
    | nil => rfl
    | cons x xs =>
      simp only [chunksOfAux]
      rw [List.flatten_cons]
      have hlen : ((x :: xs).drop b).length ≤ fuel := by
        rw [List.length_drop, List.length_cons]
        rw [List.length_cons] at hl
        omega
      rw [ih _ hlen, List.take_append_drop]

theorem foldl_add_eq {α M : Type} [AddCommMonoid M] (f : α → M) :
    ∀ (l : List α) (acc : M),
      l.foldl (fun a x => a + f x) acc = acc + (l.map f).sum := by
  intro l
  induction l with
  | nil => intro acc; simp
  | cons x xs ih =>
    intro acc
    rw [List.foldl_cons, ih (acc + f x), List.map_cons, List.sum_cons,
      add_assoc]

theorem sum_map_range {M : Type} [AddCommMonoid M] (f : Nat → M) :
    ∀ k, ((List.range k).map f).sum = ∑ i in range k, f i := by
  intro k
  induction k with
  | zero => simp
  | succ k ih =>
    rw [List.range_succ, List.map_append, List.sum_append,
      Finset.sum_range_succ, ih]
    simp

/-- The chunked block sweep accumulates exactly the three full estimator
sums whenever the block size is positive. -/
theorem chunked_total (b : Nat) (hb : 1 ≤ b) (K : Nat → Nat → ℚ)
    (m n : Nat) :
    (chunksOf b (List.range (m + n))).foldl
        (fun acc blk => acc + sweepTriple K m n blk) 0
      = (kxxSum K m, kyySum K m n, kxySum K m n) := by
  rw [foldl_add_eq, zero_add]
  have hsweep : (chunksOf b (List.range (m + n))).map (sweepTriple K m n)
      = (chunksOf b (List.range (m + n))).map
          (fun blk => (blk.map (rowContrib K m n)).sum) := by
    refine List.map_congr_left fun blk _ => ?_
    rw [sweepTriple, foldl_add_eq, zero_add]
  rw [hsweep]
  have hj : (chunksOf b (List.range (m + n))).flatten = List.range (m + n) :=
    chunksOfAux_join b hb _ _ le_rfl
  have hjoin : ((chunksOf b (List.range (m + n))).map
      (fun blk => (blk.map (rowContrib K m n)).sum)).sum
      = ((List.range (m + n)).map (rowContrib K m n)).sum := by
    calc ((chunksOf b (List.range (m + n))).map
        (fun blk => (blk.map (rowContrib K m n)).sum)).sum
        = (((chunksOf b (List.range (m + n))).map
            (List.map (rowContrib K m n))).map List.sum).sum := by
          rw [List.map_map]; rfl
      _ = (((chunksOf b (List.range (m + n))).map
            (List.map (rowContrib K m n))).flatten).sum :=
          List.sum_flatten.symm
      _ = (((chunksOf b (List.range (m + n))).flatten).map
            (rowContrib K m n)).sum := by rw [← List.map_flatten]
      _ = ((List.range (m + n)).map (rowContrib K m n)).sum := by rw [hj]
  rw [hjoin, sum_map_range]
  have hsplit : ∀ g : Nat → ℚ,
      (∑ i in range (m + n), g i)
        = (∑ i in range m, g i) + ∑ i in Ico m (m + n), g i := by
    intro g
    rw [Finset.range_eq_Ico, ← Finset.sum_Ico_consecutive g
      (Nat.zero_le m) (Nat.le_add_right m n), ← Finset.range_eq_Ico]
  refine Prod.ext ?_ (Prod.ext ?_ ?_)
  · rw [Prod.fst_sum, kxxSum, hsplit]
    have h1 : (∑ i in range m, (rowContrib K m n i).1)
        = ∑ i in range m, ∑ j in range m, if i = j then 0 else K i j := by
      refine Finset.sum_congr rfl fun i hi => ?_
      rw [rowContrib, if_pos (Finset.mem_range.mp hi)]
    have h2 : (∑ i in Ico m (m + n), (rowContrib K m n i).1) = 0 := by
      refine Finset.sum_eq_zero fun i hi => ?_
      rw [rowContrib, if_neg (by have := (Finset.mem_Ico.mp hi).1; omega)]
    rw [h1, h2, add_zero]
  · rw [Prod.snd_sum, Prod.fst_sum, kyySum, hsplit]
    have h1 : (∑ i in range m, ((rowContrib K m n i).2).1) = 0 := by
      refine Finset.sum_eq_zero fun i hi => ?_
      rw [rowContrib, if_pos (Finset.mem_range.mp hi)]
    have h2 : (∑ i in Ico m (m + n), ((rowContrib K m n i).2).1)
        = ∑ i in range n, ∑ j in range n,
            if i = j then 0 else K (m + i) (m + j) := by
      rw [Finset.sum_Ico_eq_sum_range]
      simp only [Nat.add_sub_cancel_left]
      refine Finset.sum_congr rfl fun i _ => ?_
      rw [rowContrib, if_neg (by omega)]
      dsimp only
      refine Finset.sum_congr rfl fun j _ => ?_
      simp [Nat.add_right_cancel_iff]
    rw [h1, h2, zero_add]
  · rw [Prod.snd_sum, Prod.snd_sum, kxySum, hsplit]
    have h1 : (∑ i in range m, ((rowContrib K m n i).2).2)
        = ∑ i in range m, ∑ j in range n, K i (m + j) := by
      refine Finset.sum_congr rfl fun i hi => ?_
      rw [rowContrib, if_pos (Finset.mem_range.mp hi)]
    have h2 : (∑ i in Ico m (m + n), ((rowContrib K m n i).2).2) = 0 := by
      refine Finset.sum_eq_zero fun i hi => ?_
      rw [rowContrib, if_neg (by have := (Finset.mem_Ico.mp hi).1; omega)]
    rw [h1, h2, add_zero]

/-- C5: for every kernel matrix, group sizes and block size `b ≥ 1`, the
chunked (memory-bounded) path and the unchunked in-memory path produce the
same observed MMD² statistic (exact equality over exact arithmetic). -/
theorem C5_chunked_equals_inmemory (b : Nat) (hb : 1 ≤ b)
    (K : Nat → Nat → ℚ) (m n : Nat) :
    chunkedMMD b K m n = mmd2Val K m n := by
  rw [chunkedMMD, chunked_total b hb, mmd2Val]

/-- Witness for C5 at `b = 2`, `K = Kc`, `m = n = 2`. -/
theorem C5_chunked_equals_inmemory_witness :
    chunkedMMD 2 Kc 2 2 = mmd2Val Kc 2 2 :=
  C5_chunked_equals_inmemory 2 (by decide) Kc 2 2

/-- Squared Euclidean distance between two feature vectors. -/
def sqDist (x y : List ℚ) : ℚ :=
  ((x.zip y).map fun p => (p.1 - p.2) ^ 2).sum

/-- Median of a distribution: middle element (lower median) of the sorted
list. -/
def medianOf (l : List ℚ) : ℚ :=
  (sortAsc l).getD ((l.length - 1) / 2) 0

/-- Modelled from the spec: the median-heuristic distance list of §4.1 (the
kernel bandwidth-inference code is missing from the sources): enumerate all
index pairs of the pooled sample, drop the self-pairs (the zero
self-distances), and take the squared Euclidean distances. -/
def offDiagDists (Z : List (List ℚ)) : List ℚ :=
  (((List.range Z.length).flatMap fun i =>
      (List.range Z.length).map fun j => (i, j)).filter
    fun p => decide (p.1 ≠ p.2)).map
      fun p => sqDist (Z.getD p.1 []) (Z.getD p.2 [])

/-- Modelled from the spec (reference formulation): the pairwise squared
Euclidean distances `‖z_i − z_j‖²` over the pooled sample for all pairs of
distinct indices `j ≠ i`, transcribing the spec's words directly. -/
def specOffDiagDists (Z : List (List ℚ)) : List ℚ :=
  (List.range Z.length).flatMap fun i =>
    ((List.range Z.length).filter fun j => decide (j ≠ i)).map
      fun j => sqDist (Z.getD i []) (Z.getD j [])

/-- Modelled from the spec: bandwidth auto-selection ("median heuristic") of
§4.1 — when no σ is supplied, σ² is the median of the pairwise squared
distances of the pooled sample with self-distances excluded. -/
def inferSigmaSq (Z : List (List ℚ)) : ℚ := medianOf (offDiagDists Z)

theorem filter_flatMap' {α β : Type} (l : List α) (f : α → List β)
    (p : β → Bool) :
    (l.flatMap f).filter p = l.flatMap fun a => (f a).filter p := by
  induction l with
  | nil => rfl
  | cons x xs ih => simp [List.flatMap_cons, List.filter_append, ih]

theorem map_flatMap' {α β γ : Type} (l : List α) (f : α → List β)
    (g : β → γ) :
    (l.flatMap f).map g = l.flatMap fun a => (f a).map g := by
  induction l with
  | nil => rfl
  | cons x xs ih => simp [List.flatMap_cons, List.map_append, ih]

/-- The filtered-pairs construction of the distance list coincides with the
direct distinct-pair enumeration of the spec. -/
theorem offDiag_eq_spec (Z : List (List ℚ)) :
    offDiagDists Z = specOffDiagDists Z := by
  rw [offDiagDists, specOffDiagDists, filter_flatMap', map_flatMap']
  refine congrArg _ (funext fun i => ?_)
  rw [List.filter_map, List.map_map]
  have hp : ((List.range Z.length).filter
        ((fun p => decide (p.1 ≠ p.2)) ∘ fun j => ((i, j) : Nat × Nat)))
      = (List.range Z.length).filter fun j => decide (j ≠ i) := by
    refine List.filter_congr fun j _ => ?_
    simp [Function.comp, ne_comm]
  rw [hp]
  rfl

/-- C9: when no bandwidth is supplied, the auto-selection computes the
pairwise squared Euclidean distances of the pooled sample and sets σ² to
their median with the zero self-distances excluded; the selection is a pure
function of the input (deterministic). -/
theorem C9_median_heuristic (Z : List (List ℚ)) :
    inferSigmaSq Z = medianOf (specOffDiagDists Z) := by
  rw [inferSigmaSq, offDiag_eq_spec]

/-- Reference-update policy: none, fixed trailing window, or reservoir
sampling (§4.5, modelled as a tagged variant per §9). -/
inductive UpdatePolicy where
  | noUpdate : UpdatePolicy
  | lastWindow (N : Nat) : UpdatePolicy
  | reservoir (N : Nat) : UpdatePolicy
deriving DecidableEq

/-- Detector reference state: the current reference sample plus the count of
instances seen so far (bookkeeping for reservoir sampling). -/
structure DetectorState where
  xref : List (List ℚ)
  seenCount : Nat
deriving DecidableEq

/-- Configuration surface of the statistical core (§6). -/
structure DetectorConfig where
  alpha : ℚ
  nperm : Nat
  seed : Nat
  dim : Nat
  chunk : Option Nat
  policy : UpdatePolicy
deriving DecidableEq

/-- Result record of a `predict` call (§6 result shape). -/
structure MMDResult where
  is_drift : Bool
  p_val : ℚ
  threshold : ℚ
  distance : ℚ
  distance_threshold : ℚ
deriving DecidableEq

/-- Kernel (Gram) matrix of the pooled sample `Z` under a kernel function. -/
def buildK (kernel : List ℚ → List ℚ → ℚ) (Z : List (List ℚ)) :
    Nat → Nat → ℚ :=
  fun i j => kernel (Z.getD i []) (Z.getD j [])

/-- Modelled from the spec: one reservoir-sampling step of §4.5 for a new
instance `x`; `u` is the uniform random draw from `{0, …, t}` where `t + 1`
is the 1-indexed global stream position of `x`.  Insert directly while fewer
than `N` instances are kept; otherwise replace slot `u` when `u < N` (this
happens with probability `N/(t+1)` for a uniform draw) and discard
otherwise. -/
def reservoirStep {α : Type} (N : Nat) (res : List α) (x : α) (u : Nat) :
    List α :=
  if res.length < N then res ++ [x]
  else if u < N then res.set u x else res

/-- Seeded reservoir update over a batch, threading the generator state and
the global stream count. -/
def reservoirUpdateSeeded (N : Nat) (res : List (List ℚ)) (count : Nat)
    (batch : List (List ℚ)) (s : Nat) : List (List ℚ) × Nat × Nat :=
  batch.foldl
    (fun acc x =>
      let s1 := lcgNext acc.2.2
      let u := (s1 / 65536) % (acc.2.1 + 1)
      (reservoirStep N acc.1 x u, acc.2.1 + 1, s1))
    (res, count, s)

/-- Modelled from the spec: `ReferenceSetManager.update` of §4.5 applied
after a successful `predict`. -/
def applyUpdate (policy : UpdatePolicy) (st : DetectorState)
    (batch : List (List ℚ)) (s : Nat) : DetectorState :=
  match policy with
  | .noUpdate => ⟨st.xref, st.seenCount + batch.length⟩
  | .lastWindow N =>
    ⟨fixedWindowUpdate N st.xref batch, st.seenCount + batch.length⟩
  | .reservoir N =>
    let out := reservoirUpdateSeeded N st.xref st.seenCount batch s
    ⟨out.1, out.2.1⟩

/-- Modelled from the spec: `DriftDetector.predict` of §4.6 (the detector
orchestration code is missing from the sources): validate the inputs, build
the pooled kernel matrix, run the permutation test, assemble the result and
apply the configured reference update; any failure is returned to the caller
with the reference state unchanged. -/
def DriftDetector.predict (cfg : DetectorConfig)
    (kernel : List ℚ → List ℚ → ℚ) (st : DetectorState)
    (batch : List (List ℚ)) : Except String MMDResult × DetectorState :=
  if (¬ ∀ v ∈ st.xref, v.length = cfg.dim) ∨
      (¬ ∀ v ∈ batch, v.length = cfg.dim) then
    (.error "invalid-input: mismatched feature dimensionality", st)
  else if cfg.chunk.getD 1 = 0 then
    (.error "invalid-input: non-positive block size", st)
  else
    match PermutationTest.run (buildK kernel (st.xref ++ batch))
        st.xref.length batch.length cfg.nperm cfg.alpha cfg.seed with
    | .error e => (.error e, st)
    | .ok r =>
      (.ok ⟨isDriftDecision cfg.alpha r, r.p_value, cfg.alpha, r.observed,
          r.distance_threshold⟩,
        applyUpdate cfg.policy st batch cfg.seed)

/-- The permutation test fails exactly on a non-positive permutation count
or a degenerate group size. -/
theorem run_error_iff (K : Nat → Nat → ℚ) (m n nperm : Nat) (alpha : ℚ)
    (seed : Nat) :
    (∃ e, PermutationTest.run K m n nperm alpha seed = .error e) ↔
      (nperm = 0 ∨ m ≤ 1 ∨ n ≤ 1) := by
  rw [PermutationTest.run]
  by_cases hnp : nperm = 0
  · simp [hnp]
  rw [if_neg hnp, MMDStatistic.compute]
  by_cases hcond : m ≤ 1 ∨ n ≤ 1
  · simp [hcond, hnp]
  · rw [if_neg hcond]
    constructor
    · rintro ⟨e, he⟩
      exact absurd he (by simp)
    · intro h
      rcases h with h | h | h
      · exact absurd h hnp
      · exact absurd (Or.inl h) hcond
      · exact absurd (Or.inr h) hcond

theorem chunk_getD_eq_zero_iff (c : Option Nat) :
    c.getD 1 = 0 ↔ c = some 0 := by
  cases c <;> simp

/-- C4: `MMDStatistic.compute` (and hence `predict`) fails with an
invalid-input error exactly when a group size is ≤ 1 (or, at the `predict`
level, additionally when the feature dimensionalities mismatch, the
permutation count is non-positive, or the block size is non-positive); the
boundary case `m = n = 2` succeeds. -/
theorem C4_invalid_input_iff :
    (∀ (K : Nat → Nat → ℚ) (m n : Nat),
      (∃ e, MMDStatistic.compute K m n = .error e) ↔ (m ≤ 1 ∨ n ≤ 1))
    ∧ (∀ K : Nat → Nat → ℚ, ∃ q, MMDStatistic.compute K 2 2 = .ok q)
    ∧ (∀ (cfg : DetectorConfig) (kernel : List ℚ → List ℚ → ℚ)
        (st : DetectorState) (batch : List (List ℚ)),
        (∃ e, (DriftDetector.predict cfg kernel st batch).1 = .error e) ↔
          (st.xref.length ≤ 1 ∨ batch.length ≤ 1
            ∨ (¬ ∀ v ∈ st.xref, v.length = cfg.dim)
            ∨ (¬ ∀ v ∈ batch, v.length = cfg.dim)
            ∨ cfg.nperm = 0 ∨ cfg.chunk = some 0)) := by
  refine ⟨?_, ?_, ?_⟩
  · intro K m n
    rw [MMDStatistic.compute]
    by_cases hcond : m ≤ 1 ∨ n ≤ 1
    · simp [hcond]
    · rw [if_neg hcond]
      constructor
      · rintro ⟨e, he⟩
        exact absurd he (by simp)
      · intro h
        exact absurd h hcond
  · intro K
    exact ⟨mmd2Val K 2 2, by rw [MMDStatistic.compute, if_neg (by omega)]⟩
  · intro cfg kernel st batch
    rw [DriftDetector.predict]
    by_cases hdim : (¬ ∀ v ∈ st.xref, v.length = cfg.dim) ∨
        (¬ ∀ v ∈ batch, v.length = cfg.dim)
    · rw [if_pos hdim]
      simp only [List.length_nil]
      constructor
      · intro _
        tauto
      · intro _
        exact ⟨_, rfl⟩
    · rw [if_neg hdim]
      push_neg at hdim
      by_cases hchunk : cfg.chunk.getD 1 = 0
      · rw [if_pos hchunk]
        rw [chunk_getD_eq_zero_iff] at hchunk
        constructor
        · intro _
          tauto
        · intro _
          exact ⟨_, rfl⟩
      · rw [if_neg hchunk]
        rw [chunk_getD_eq_zero_iff] at hchunk
        have hrun := run_error_iff (buildK kernel (st.xref ++ batch))
          st.xref.length batch.length cfg.nperm cfg.alpha cfg.seed
        constructor
        · intro hex
          obtain ⟨e, he⟩ := hex
          have : ∃ e, PermutationTest.run (buildK kernel (st.xref ++ batch))
              st.xref.length batch.length cfg.nperm cfg.alpha cfg.seed
              = .error e := by
            cases hr : PermutationTest.run (buildK kernel (st.xref ++ batch))
                st.xref.length batch.length cfg.nperm cfg.alpha cfg.seed with
            | error e2 => exact ⟨e2, rfl⟩
            | ok r =>
              rw [hr] at he
              exact absurd he (by simp)
          have hd := hrun.mp this
          tauto
        · intro hdisj
          have hd : cfg.nperm = 0 ∨ st.xref.length ≤ 1 ∨
              batch.length ≤ 1 := by
            rcases hdisj with h | h | h | h | h | h
            · exact Or.inr (Or.inl h)
            · exact Or.inr (Or.inr h)
            · exact absurd hdim.1 h
            · exact absurd hdim.2 h
            · exact Or.inl h
            · exact absurd h hchunk
          obtain ⟨e, he⟩ := hrun.mpr hd
          rw [he]
          exact ⟨e, rfl⟩

/-- C10: a failing `predict` leaves the reference state unmodified (the
update step is skipped), and a failure of the permutation-test sub-component
is surfaced to the caller unswallowed as the first failure once input
validation has passed. -/
theorem C10_error_propagation (cfg : DetectorConfig)
    (kernel : List ℚ → List ℚ → ℚ) (st : DetectorState)
    (batch : List (List ℚ)) :
    (∀ e, (DriftDetector.predict cfg kernel st batch).1 = .error e →
      (DriftDetector.predict cfg kernel st batch).2 = st)
    ∧ (∀ e, (∀ v ∈ st.xref, v.length = cfg.dim) →
        (∀ v ∈ batch, v.length = cfg.dim) →
        cfg.chunk ≠ some 0 →
        PermutationTest.run (buildK kernel (st.xref ++ batch))
          st.xref.length batch.length cfg.nperm cfg.alpha cfg.seed
          = .error e →
        (DriftDetector.predict cfg kernel st batch).1 = .error e) := by
  constructor
  · intro e he
    rw [DriftDetector.predict] at he ⊢
    by_cases hdim : (¬ ∀ v ∈ st.xref, v.length = cfg.dim) ∨
        (¬ ∀ v ∈ batch, v.length = cfg.dim)
    · rw [if_pos hdim]
    · rw [if_neg hdim] at he ⊢
      by_cases hchunk : cfg.chunk.getD 1 = 0
      · rw [if_pos hchunk]
      · rw [if_neg hchunk] at he ⊢
        cases hr : PermutationTest.run (buildK kernel (st.xref ++ batch))
            st.xref.length batch.length cfg.nperm cfg.alpha cfg.seed with
        | error e2 => rfl
        | ok r =>
          rw [hr] at he
          exact absurd he (by simp)
  · intro e hd1 hd2 hchunk hrun
    rw [DriftDetector.predict]
    rw [if_neg (by push_neg; exact ⟨hd1, hd2⟩)]
    rw [if_neg (fun hc => hchunk ((chunk_getD_eq_zero_iff _).mp hc))]
    rw [hrun]

/-- Concrete failing configuration for the C10 witness: dimension-1
features, reference of size 2, batch of size 1 (degenerate). -/
def cfgWit : DetectorConfig := ⟨1 / 20, 100, 0, 1, none, .noUpdate⟩

/-- Concrete reference state for the C10 witness. -/
def stWit : DetectorState := ⟨[[0], [1]], 2⟩

/-- Witness for C10: a batch of size 1 makes the statistic sub-component
fail; the error is surfaced and the state is unchanged. -/
theorem C10_error_propagation_witness :
    (DriftDetector.predict cfgWit (fun _ _ => 0) stWit [[5]]).1
        = .error "invalid-input: reference or batch sample size <= 1"
      ∧ (DriftDetector.predict cfgWit (fun _ _ => 0) stWit [[5]]).2
        = stWit := by
  have hp := (C10_error_propagation cfgWit (fun _ _ => 0) stWit [[5]]).2
    "invalid-input: reference or batch sample size <= 1"
    (by decide) (by decide) (by decide) (by decide)
  exact ⟨hp, (C10_error_propagation cfgWit (fun _ _ => 0) stWit [[5]]).1
    "invalid-input: reference or batch sample size <= 1" hp⟩

/-- All uniform-draw sequences for the first `T` arrivals of the stream: the
draw for arrival `a` (0-indexed) ranges uniformly over `{0, …, a}`.  Counting
over this list is counting with the uniform product measure. -/
def allSeqs : Nat → List (List Nat)
  | 0 => [[]]
  | t + 1 =>
    (allSeqs t).flatMap fun cs => (List.range (t + 1)).map fun u => cs ++ [u]

/-- Run the reservoir over a draw sequence from state `st = (reservoir,
arrival index)`; instances are identified by their arrival index. -/
def runResAux (N : Nat) (st : List Nat × Nat) (cs : List Nat) :
    List Nat × Nat :=
  cs.foldl (fun acc u => (reservoirStep N acc.1 acc.2 u, acc.2 + 1)) st

/-- Reservoir contents after streaming the arrivals `0, …, cs.length - 1`
with draw sequence `cs` through an initially empty reservoir of size `N`. -/
def resOf (N : Nat) (cs : List Nat) : List Nat := (runResAux N ([], 0) cs).1

theorem runResAux_append (N : Nat) (st : List Nat × Nat) (cs ds : List Nat) :
    runResAux N st (cs ++ ds) = runResAux N (runResAux N st cs) ds :=
  List.foldl_append _ _ _ _

theorem runResAux_snd (N : Nat) :
    ∀ (cs : List Nat) (st : List Nat × Nat),
      (runResAux N st cs).2 = st.2 + cs.length := by
  intro cs
  induction cs with
  | nil => intro st; simp [runResAux]
  | cons u us ih =>
    intro st
    rw [runResAux, List.foldl_cons]
    have h := ih (reservoirStep N st.1 st.2 u, st.2 + 1)
    rw [runResAux] at h
    rw [h]
    simp [List.length_cons]
    omega

theorem resOf_snoc (N : Nat) (cs : List Nat) (u : Nat) :
    resOf N (cs ++ [u]) = reservoirStep N (resOf N cs) cs.length u := by
  rw [resOf, runResAux_append]
  rw [show runResAux N (runResAux N ([], 0) cs) [u]
      = ((reservoirStep N (runResAux N ([], 0) cs).1
          (runResAux N ([], 0) cs).2 u,
        (runResAux N ([], 0) cs).2 + 1)) from rfl]
  rw [runResAux_snd]
  simp [resOf]

/-- Replacing a slot with an element not present in a duplicate-free list
keeps it duplicate-free. -/
theorem nodup_set_of_not_mem {α : Type} :
    ∀ (l : List α) (u : Nat) (x : α), l.Nodup → x ∉ l → (l.set u x).Nodup := by
  intro l
  induction l with
  | nil => intro u x _ _; simp
  | cons y ys ih =>
    intro u x hnd hx
    rw [List.nodup_cons] at hnd
    cases u with
    | zero =>
      rw [List.set_cons_zero, List.nodup_cons]
      exact ⟨fun hc => hx (List.mem_cons_of_mem _ hc), hnd.2⟩
    | succ v =>
      rw [List.set_cons_succ, List.nodup_cons]
      refine ⟨fun hc => ?_, ih v x hnd.2 fun hc => hx (List.mem_cons_of_mem _ hc)⟩
      rcases List.mem_or_eq_of_mem_set hc with hc | hc
      · exact hnd.1 hc
      · exact hx (by rw [hc]; exact List.mem_cons_self _ _)

/-- Structural invariants of the reservoir after any draw sequence: it holds
`min N t` instances, all with arrival index `< t`, without duplicates. -/
theorem resOf_invariants (N : Nat) (cs : List Nat) :
    (resOf N cs).length = min N cs.length
    ∧ (∀ x ∈ resOf N cs, x < cs.length)
    ∧ (resOf N cs).Nodup := by
  induction cs using List.reverseRecOn with
  | nil => simp [resOf, runResAux]
  | append_singleton cs u ih =>
    obtain ⟨hlen, hmem, hnd⟩ := ih
    rw [resOf_snoc, reservoirStep]
    by_cases hc : (resOf N cs).length < N
    · rw [if_pos hc]
      refine ⟨?_, ?_, ?_⟩
      · rw [List.length_append, List.length_singleton, hlen,
          List.length_append, List.length_singleton]
        omega
      · intro x hx
        rw [List.length_append, List.length_singleton]
        rcases List.mem_append.mp hx with hx | hx
        · exact Nat.lt_succ_of_lt (hmem x hx)
        · rw [List.mem_singleton.mp hx]
          exact Nat.lt_succ_self _
      · rw [List.nodup_append]
        exact ⟨hnd, List.nodup_singleton _,
          fun x hx hx1 => Nat.lt_irrefl _
            (by rw [List.mem_singleton.mp hx1] at hx; exact hmem _ hx)⟩
    · rw [if_neg hc]
      by_cases hu : u < N
      · rw [if_pos hu]
        refine ⟨?_, ?_, ?_⟩
        · rw [List.length_set, hlen, List.length_append,
            List.length_singleton]
          omega
        · intro x hx
          rw [List.length_append, List.length_singleton]
          rcases List.mem_or_eq_of_mem_set hx with hx | hx
          · exact Nat.lt_succ_of_lt (hmem x hx)
          · rw [hx]; exact Nat.lt_succ_self _
        · exact nodup_set_of_not_mem _ u cs.length hnd
            fun hcm => Nat.lt_irrefl _ (hmem _ hcm)
      · rw [if_neg hu]
        refine ⟨?_, fun x hx => ?_, hnd⟩
        · rw [hlen, List.length_append, List.length_singleton]
          omega
        · rw [List.length_append, List.length_singleton]
          exact Nat.lt_succ_of_lt (hmem x hx)

/-- During the fill phase (`t ≤ N`) the reservoir contains every instance
seen so far. -/
theorem resOf_full (N : Nat) (cs : List Nat) (h : cs.length ≤ N) :
    ∀ i < cs.length, i ∈ resOf N cs := by
  obtain ⟨hlen, hmem, hnd⟩ := resOf_invariants N cs
  intro i hi
  have hlen2 : (resOf N cs).length = cs.length := by omega
  have hsub : (resOf N cs).toFinset ⊆ Finset.range cs.length := by
    intro x hx
    rw [Finset.mem_range]
    exact hmem x (List.mem_toFinset.mp hx)
  have hcard : (resOf N cs).toFinset.card = cs.length := by
    rw [List.toFinset_card_of_nodup hnd, hlen2]
  have heq : (resOf N cs).toFinset = Finset.range cs.length :=
    Finset.eq_of_subset_of_card_le hsub (by rw [hcard, Finset.card_range])
  have : i ∈ (resOf N cs).toFinset := by
    rw [heq, Finset.mem_range]; exact hi
  exact List.mem_toFinset.mp this

theorem countP_flatMap' {α β : Type} (l : List α) (f : α → List β)
    (p : β → Bool) :
    (l.flatMap f).countP p = (l.map fun a => (f a).countP p).sum := by
  induction l with
  | nil => rfl
  | cons x xs ih => simp [List.flatMap_cons, ih]

theorem length_flatMap' {α β : Type} (l : List α) (f : α → List β) :
    (l.flatMap f).length = (l.map fun a => (f a).length).sum := by
  induction l with
  | nil => rfl
  | cons x xs ih => simp [List.flatMap_cons, ih]

theorem sum_map_const_nat {α : Type} (l : List α) (c : Nat) :
    (l.map fun _ => c).sum = l.length * c := by
  induction l with
  | nil => simp
  | cons x xs ih =>
    rw [List.map_cons, List.sum_cons, ih, List.length_cons]
    ring

theorem sum_map_ite_nat {α : Type} (l : List α) (q : α → Bool) (c : Nat) :
    (l.map fun a => if q a then c else 0).sum = c * l.countP q := by
  induction l with
  | nil => simp
  | cons x xs ih =>
    rw [List.map_cons, List.sum_cons, ih, List.countP_cons]
    cases hq : q x <;> simp [hq] <;> ring

theorem countP_range_add (p : Nat → Bool) (a b : Nat) :
    (List.range (a + b)).countP p
      = (List.range a).countP p
        + ((List.range b).countP fun k => p (a + k)) := by
  induction b with
  | zero => simp
  | succ b ih =>
    rw [show a + (b + 1) = (a + b) + 1 from rfl, List.range_succ,
      List.countP_append, ih, List.range_succ, List.countP_append]
    cases hp : p (a + b) <;> simp [hp] <;> omega

theorem countP_getD_eq_count (i : Nat) :
    ∀ res : List Nat,
      ((List.range res.length).countP fun u => decide (res.getD u 0 = i))
        = res.count i := by
  intro res
  induction res with
  | nil => rfl
  | cons x xs ih =>
    rw [List.length_cons, List.range_succ_eq_map, List.countP_cons,
      List.countP_map]
    have hfun : ((fun u => decide ((x :: xs).getD u 0 = i)) ∘ Nat.succ)
        = fun u => decide (xs.getD u 0 = i) := rfl
    rw [hfun, ih, List.count_cons]
    by_cases hxi : x = i <;> simp [hxi]

theorem mem_set_iff_fresh :
    ∀ (res : List Nat) (u t i : Nat), u < res.length →
      res.Nodup → i ≠ t →
      (i ∈ res.set u t ↔ (i ∈ res ∧ res.getD u 0 ≠ i)) := by
  intro res
  induction res with
  | nil => intro u t i hu; simp at hu
  | cons x xs ih =>
    intro u t i hu hnd hit
    rw [List.nodup_cons] at hnd
    cases u with
    | zero =>
      rw [List.set_cons_zero]
      simp only [List.getD_cons_zero, List.mem_cons]
      constructor
      · intro h
        rcases h with h | h
        · exact absurd h hit
        · exact ⟨Or.inr h, fun hxi => hnd.1 (hxi ▸ h)⟩
      · rintro ⟨h1, h2⟩
        rcases h1 with h1 | h1
        · exact absurd h1.symm h2
        · exact Or.inr h1
    | succ v =>
      rw [List.set_cons_succ]
      simp only [List.getD_cons_succ, List.mem_cons]
      rw [List.length_cons] at hu
      have hv : v < xs.length := by omega
      have hmemg : xs.getD v 0 ∈ xs := by
        rw [List.getD_eq_get _ _ hv]
        exact List.get_mem _ _ _
      rw [ih v t i hv hnd.2 hit]
      constructor
      · rintro (h | ⟨h1, h2⟩)
        · exact ⟨Or.inl h, fun hgd => hnd.1 (by rw [← h, ← hgd]; exact hmemg)⟩
        · exact ⟨Or.inr h1, h2⟩
      · rintro ⟨h1 | h1, h2⟩
        · exact Or.inl h1
        · exact Or.inr ⟨h1, h2⟩

theorem countP_not_bool {α : Type} (l : List α) (p : α → Bool) :
    (l.countP fun a => ! p a) = l.length - l.countP p := by
  induction l with
  | nil => rfl
  | cons x xs ih =>
    rw [List.countP_cons, List.countP_cons, ih, List.length_cons]
    have hle : xs.countP p ≤ xs.length := List.countP_le_length _
    cases hp : p x <;> simp [hp] <;> omega

theorem sum_map_ite_prop {α : Type} (l : List α) (P : α → Prop)
    [DecidablePred P] (c : Nat) :
    (l.map fun a => if P a then c else 0).sum
      = c * l.countP fun a => decide (P a) := by
  induction l with
  | nil => simp
  | cons x xs ih =>
    rw [List.map_cons, List.sum_cons, ih, List.countP_cons]
    by_cases hp : P x <;> simp [hp] <;> ring

/-- Fill-phase survival count: while the reservoir is below capacity every
draw inserts the new instance, keeping everything. -/
theorem countP_step_fill (N : Nat) (res : List Nat) (t i : Nat)
    (hc : res.length < N) :
    ((List.range (t + 1)).countP fun u =>
        decide (i ∈ reservoirStep N res t u))
      = if i ∈ res ++ [t] then t + 1 else 0 := by
  have hstep : ∀ u, reservoirStep N res t u = res ++ [t] := fun u => by
    rw [reservoirStep, if_pos hc]
  by_cases hm : i ∈ res ++ [t]
  · rw [if_pos hm, List.countP_eq_length.mpr fun u _ => by simp [hstep, hm],
      List.length_range]
  · rw [if_neg hm, List.countP_eq_zero.mpr fun u _ => by simp [hstep, hm]]

/-- Saturated-phase survival count: of the `t + 1` equally likely draws for
arrival `t`, the new instance enters the reservoir in exactly `N`, an
instance already present survives in exactly `t`, and an absent instance
stays out. -/
theorem countP_step_saturated (N : Nat) (res : List Nat) (t i : Nat)
    (hlen : res.length = N) (hnd : res.Nodup)
    (hbound : ∀ x ∈ res, x < t) (hNt : N ≤ t) :
    ((List.range (t + 1)).countP fun u =>
        decide (i ∈ reservoirStep N res t u))
      = if i = t then N else if i ∈ res then t else 0 := by
  have hnotlt : ¬ res.length < N := by omega
  have htm : t ∉ res := fun hc => Nat.lt_irrefl t (hbound t hc)
  have hsplit : t + 1 = N + (t + 1 - N) := by omega
  rw [hsplit, countP_range_add]
  have hpart1 : ((List.range N).countP fun u =>
      decide (i ∈ reservoirStep N res t u))
      = (List.range N).countP fun u => decide (i ∈ res.set u t) := by
    refine List.countP_congr fun u hu => ?_
    rw [List.mem_range] at hu
    rw [reservoirStep, if_neg hnotlt, if_pos hu]
  have hpart2 : ((List.range (t + 1 - N)).countP fun k =>
      decide (i ∈ reservoirStep N res t (N + k)))
      = (List.range (t + 1 - N)).countP fun _ => decide (i ∈ res) := by
    refine List.countP_congr fun k _ => ?_
    rw [reservoirStep, if_neg hnotlt, if_neg (by omega)]
  rw [hpart1, hpart2]
  by_cases hit : i = t
  · rw [if_pos hit]
    have hall : ∀ u ∈ List.range N,
        ((fun u => decide (i ∈ res.set u t)) u) = true := by
      intro u hu
      rw [List.mem_range] at hu
      simp only [decide_eq_true_eq]
      rw [hit]
      exact List.mem_set res u (by omega) t
    have h1 : ((List.range N).countP fun u => decide (i ∈ res.set u t))
        = N := by
      rw [List.countP_eq_length.mpr hall, List.length_range]
    have h2 : ((List.range (t + 1 - N)).countP
        fun _ => decide (i ∈ res)) = 0 :=
      List.countP_eq_zero.mpr fun k _ => by simp [hit, htm]
    rw [h1, h2]
    omega
  · rw [if_neg hit]
    by_cases hmem : i ∈ res
    · rw [if_pos hmem]
      have hN1 : 1 ≤ N := by
        have := List.length_pos.mpr (List.ne_nil_of_mem hmem)
        omega
      have h1 : ((List.range N).countP fun u => decide (i ∈ res.set u t))
          = N - 1 := by
        have hcong : ∀ u ∈ List.range N,
            (decide (i ∈ res.set u t) = true ↔
              (! decide (res.getD u 0 = i)) = true) := by
          intro u hu
          rw [List.mem_range] at hu
          have hu' : u < res.length := by omega
          have hiff := mem_set_iff_fresh res u t i hu' hnd hit
          by_cases hg : res.getD u 0 = i <;> simp [hiff, hg, hmem]
        rw [List.countP_congr hcong, countP_not_bool, List.length_range]
        have hcc : ((List.range N).countP
            fun u => decide (res.getD u 0 = i)) = res.count i := by
          rw [show N = res.length from hlen.symm]
          exact countP_getD_eq_count i res
        rw [hcc, List.count_eq_one_of_mem hnd hmem]
      have h2 : ((List.range (t + 1 - N)).countP
          fun _ => decide (i ∈ res)) = t + 1 - N := by
        rw [List.countP_eq_length.mpr fun k _ => by simp [hmem],
          List.length_range]
      rw [h1, h2]
      omega
    · rw [if_neg hmem]
      have h1 : ((List.range N).countP fun u => decide (i ∈ res.set u t))
          = 0 := by
        refine List.countP_eq_zero.mpr fun u hu => ?_
        rw [List.mem_range] at hu
        have hu' : u < res.length := by omega
        simp [mem_set_iff_fresh res u t i hu' hnd hit, hmem]
      have h2 : ((List.range (t + 1 - N)).countP
          fun _ => decide (i ∈ res)) = 0 :=
        List.countP_eq_zero.mpr fun k _ => by simp [hmem]
      rw [h1, h2]

theorem mem_allSeqs_length :
    ∀ (T : Nat) (cs : List Nat), cs ∈ allSeqs T → cs.length = T := by
  intro T
  induction T with
  | zero =>
    intro cs hcs
    rw [allSeqs] at hcs
    rw [List.mem_singleton.mp hcs]
    rfl
  | succ t ih =>
    intro cs hcs
    rw [allSeqs, List.mem_flatMap] at hcs
    obtain ⟨cs', hcs', hmem⟩ := hcs
    rw [List.mem_map] at hmem
    obtain ⟨u, _, rfl⟩ := hmem
    rw [List.length_append, ih cs' hcs', List.length_singleton]

theorem allSeqs_length_succ (t : Nat) :
    (allSeqs (t + 1)).length = (allSeqs t).length * (t + 1) := by
  rw [allSeqs, length_flatMap']
  have hc : ((allSeqs t).map fun cs =>
      ((List.range (t + 1)).map fun u => cs ++ [u]).length)
      = (allSeqs t).map fun _ => t + 1 := by
    refine List.map_congr_left fun cs _ => ?_
    rw [List.length_map, List.length_range]
  rw [hc, sum_map_const_nat]

/-- C8: for a reservoir of capacity `N`, after streaming `T` instances with
all draw sequences equally likely, each instance `i < T` is in the reservoir
in exactly a `min N T / T` fraction of the draw sequences — during the fill
phase (`T ≤ N`) it is always present, and afterwards its inclusion
probability is exactly `N/T`, the claimed invariant (with the
pre-initialization reference data forming the initial stream prefix). -/
theorem C8_reservoir_uniform_inclusion (N : Nat) :
    ∀ (T i : Nat), i < T →
      ((allSeqs T).countP fun cs => decide (i ∈ resOf N cs)) * T
        = min N T * (allSeqs T).length := by
  intro T
  induction T with
  | zero => intro i hi; exact absurd hi (Nat.not_lt_zero i)
  | succ t ih =>
    intro i hi
    have hcount : ((allSeqs (t + 1)).countP
        fun cs => decide (i ∈ resOf N cs))
        = ((allSeqs t).map fun cs => ((List.range (t + 1)).countP
            fun u => decide (i ∈ reservoirStep N (resOf N cs) t u))).sum := by
      rw [allSeqs, countP_flatMap']
      congr 1
      refine List.map_congr_left fun cs hcs => ?_
      rw [List.countP_map]
      refine List.countP_congr fun u _ => ?_
      have hshow : ((fun cs2 => decide (i ∈ resOf N cs2)) ∘
          fun u => cs ++ [u]) u = decide (i ∈ resOf N (cs ++ [u])) := rfl
      rw [hshow, resOf_snoc, mem_allSeqs_length t cs hcs]
    by_cases hphase : t < N
    · -- fill phase: every draw keeps every instance
      have hper : ∀ cs ∈ allSeqs t,
          ((List.range (t + 1)).countP
            fun u => decide (i ∈ reservoirStep N (resOf N cs) t u))
          = t + 1 := by
        intro cs hcs
        obtain ⟨hlen, _, _⟩ := resOf_invariants N cs
        rw [mem_allSeqs_length t cs hcs] at hlen
        have hlt : (resOf N cs).length < N := by omega
        rw [countP_step_fill N _ t i hlt, if_pos ?_]
        rcases Nat.lt_succ_iff_lt_or_eq.mp hi with hi' | hi'
        · refine List.mem_append.mpr (Or.inl ?_)
          have hfull := resOf_full N cs (by
            rw [mem_allSeqs_length t cs hcs]; omega)
          rw [mem_allSeqs_length t cs hcs] at hfull
          exact hfull i hi'
        · exact List.mem_append.mpr (Or.inr (by rw [hi']; simp))
      have hmap : ((allSeqs t).map fun cs => ((List.range (t + 1)).countP
          fun u => decide (i ∈ reservoirStep N (resOf N cs) t u)))
          = (allSeqs t).map fun _ => t + 1 :=
        List.map_congr_left hper
      rw [hcount, hmap, sum_map_const_nat, allSeqs_length_succ,
        Nat.min_eq_right (by omega)]
      ring
    · -- saturated phase
      push_neg at hphase
      have hminN : min N (t + 1) = N := Nat.min_eq_left (by omega)
      have hper : ∀ cs ∈ allSeqs t,
          ((List.range (t + 1)).countP
            fun u => decide (i ∈ reservoirStep N (resOf N cs) t u))
          = if i = t then N else if i ∈ resOf N cs then t else 0 := by
        intro cs hcs
        obtain ⟨hlen, hmem, hnd⟩ := resOf_invariants N cs
        rw [mem_allSeqs_length t cs hcs] at hlen hmem
        exact countP_step_saturated N _ t i
          (by omega) hnd hmem hphase
      have hmap : ((allSeqs t).map fun cs => ((List.range (t + 1)).countP
          fun u => decide (i ∈ reservoirStep N (resOf N cs) t u)))
          = (allSeqs t).map
              fun cs => if i = t then N
                else if i ∈ resOf N cs then t else 0 :=
        List.map_congr_left hper
      by_cases hit : i = t
      · have hmap2 : ((allSeqs t).map
            fun cs => if i = t then N
              else if i ∈ resOf N cs then t else 0)
            = (allSeqs t).map fun _ => N := by
          refine List.map_congr_left fun cs _ => ?_
          rw [if_pos hit]
        rw [hcount, hmap, hmap2, sum_map_const_nat, allSeqs_length_succ,
          hminN]
        ring
      · have hmap2 : ((allSeqs t).map
            fun cs => if i = t then N
              else if i ∈ resOf N cs then t else 0)
            = (allSeqs t).map
                fun cs => if i ∈ resOf N cs then t else 0 := by
          refine List.map_congr_left fun cs _ => ?_
          rw [if_neg hit]
        have hlt : i < t := by omega
        have hIH := ih i hlt
        rw [Nat.min_eq_left hphase] at hIH
        rw [hcount, hmap, hmap2, sum_map_ite_prop, allSeqs_length_succ,
          hminN]
        calc t * ((allSeqs t).countP fun cs => decide (i ∈ resOf N cs))
              * (t + 1)
            = (((allSeqs t).countP fun cs => decide (i ∈ resOf N cs)) * t)
              * (t + 1) := by ring
          _ = N * (allSeqs t).length * (t + 1) := by rw [hIH]
          _ = N * ((allSeqs t).length * (t + 1)) := by ring

/-- Witness for C8 at `N = 2`, `T = 3`, instance `i = 0`: of the six
equally likely draw sequences, instance 0 remains in the reservoir in four,
i.e. with probability `2/3`. -/
theorem C8_reservoir_uniform_inclusion_witness :
    ((allSeqs 3).countP fun cs => decide (0 ∈ resOf 2 cs)) * 3
      = min 2 3 * (allSeqs 3).length :=
  C8_reservoir_uniform_inclusion 2 3 0 (by decide)

end AlibiDetect
